import Mathlib

/-
Shallow embedding of the Longstaff-Schwartz American-option pricing engine
(the CUDA pricing benchmark).  Device `double` arithmetic is idealised as
exact arithmetic over a linear ordered field (instantiated at `ℝ` in the
theorems); the exponential and square-root intrinsics are passed as explicit
function parameters and instantiated with `Real.exp` / `Real.sqrt`.
Atomic reductions are modelled as canonical finite sums, which is exact
because field addition is associative and commutative.
Decimal constants such as `1.0e-8` are written as `1 / 10 ^ 8`.
-/

namespace LSM

variable {α : Type} [LinearOrderedField α]

/-- The payoff functors `PayoffPut` / `PayoffCall`: a strike `K` and a tag
selecting the put variant (the template parameter of the kernels). -/
structure Payoff (α : Type) where
  put : Bool
  K : α

/-- `operator()`: intrinsic value, `fmax(K - S, 0)` for a put and
`fmax(S - K, 0)` for a call. -/
def Payoff.value (P : Payoff α) (S : α) : α :=
  if P.put then max (P.K - S) 0 else max (S - P.K) 0

/-- `is_in_the_money`: `S < K` for a put, `K < S` for a call. -/
def Payoff.itm (P : Payoff α) (S : α) : Bool :=
  if P.put then decide (S < P.K) else decide (P.K < S)

/-! ### Path Generator (`generate_paths_kernel`)

One thread of the kernel owns one path `p`.  It keeps a running price `S`,
multiplies it by `exp(r_min_half_sigma_sq_dt + sigma_sqrt_dt * Z)` at each
timestep, stores the updated price for timesteps `0 .. T-2`, and stores the
payoff of the terminal price in row `T-1`.  `samples[offset]` with
`offset = t*num_paths + p` is modelled by the sample function `Z t p`. -/

/-- One multiplicative GBM step, `S * exp(drift + vol * z)`; `ex` is the
exponential function of the device (`Real.exp` in the claims). -/
def pathStep (ex : α → α) (drift vol S z : α) : α :=
  S * ex (drift + vol * z)

/-- The per-thread loop of `generate_paths_kernel`, carrying the running
price `S` at absolute timestep `t`.  With `rem` remaining loop iterations it
emits `rem` updated prices and then the terminal payoff, mirroring the
`for` loop followed by the final `paths[offset] = payoff(S)` store. -/
def genRows (P : Payoff α) (ex : α → α) (drift vol : α) (Z : ℕ → α) :
    ℕ → α → ℕ → List α
  | t, S, 0 => [P.value (pathStep ex drift vol S (Z t))]
  | t, S, rem + 1 =>
      let S' := pathStep ex drift vol S (Z t)
      S' :: genRows P ex drift vol Z (t + 1) S' rem

/-- The column of the path matrix owned by path `p`:
`num_timesteps - 1` price rows followed by the terminal-payoff row. -/
def pathColumn (P : Payoff α) (ex sq : α → α) (T : ℕ) (r sigma dt S0 : α)
    (Z : ℕ → ℕ → α) (p : ℕ) : List α :=
  genRows P ex ((r - 0.5 * sigma * sigma) * dt) (sigma * sq dt) (fun t => Z t p) 0 S0 (T - 1)

/-- Entry `(t, p)` of the generated `PathMatrix`. -/
def pathsEntry (P : Payoff α) (ex sq : α → α) (T : ℕ) (r sigma dt S0 : α)
    (Z : ℕ → ℕ → α) (t p : ℕ) : α :=
  (pathColumn P ex sq T r sigma dt S0 Z p).getD t 0

/-- The specification-side recurrence: `S_0 = S0` and
`S_{k+1} = S_k * exp((r - sigma^2/2) * dt + sigma * sqrt dt * Z k)`,
folded over the samples of one path. -/
noncomputable def gbmPrice (r sigma dt S0 : ℝ) (Z : ℕ → ℝ) : ℕ → ℝ
  | 0 => S0
  | k + 1 => gbmPrice r sigma dt S0 Z k *
      Real.exp ((r - sigma ^ 2 / 2) * dt + sigma * Real.sqrt dt * Z k)

/-- Iterating `pathStep` `k` times from price `S` at absolute timestep `t`
(the value of the loop variable `S` of `generate_paths_kernel`). -/
def stepFold (ex : α → α) (drift vol : α) (Z : ℕ → α) (t : ℕ) (S : α) : ℕ → α
  | 0 => S
  | k + 1 => pathStep ex drift vol (stepFold ex drift vol Z t S k) (Z (t + k))

theorem stepFold_shift (ex : α → α) (drift vol : α) (Z : ℕ → α) (t : ℕ) (S : α)
    (k : ℕ) :
    stepFold ex drift vol Z (t + 1) (pathStep ex drift vol S (Z t)) k =
      stepFold ex drift vol Z t S (k + 1) := by
  induction k with
  | zero => simp [stepFold]
  | succ k ih =>
      show pathStep _ _ _ _ _ = _
      rw [ih]
      show _ = pathStep _ _ _ _ (Z (t + (k + 1)))
      rw [show t + 1 + k = t + (k + 1) by omega]

theorem genRows_getD_lt (P : Payoff α) (ex : α → α) (drift vol : α) (Z : ℕ → α) :
    ∀ (rem t : ℕ) (S : α) (i : ℕ), i < rem →
      (genRows P ex drift vol Z t S rem).getD i 0 =
        stepFold ex drift vol Z t S (i + 1) := by
  intro rem
  induction rem with
  | zero => intro t S i hi; omega
  | succ rem ih =>
      intro t S i hi
      match i with
      | 0 => simp [genRows, stepFold]
      | j + 1 =>
          show (genRows P ex drift vol Z (t + 1) (pathStep ex drift vol S (Z t)) rem).getD j 0 = _
          rw [ih (t + 1) _ j (by omega), stepFold_shift]

theorem genRows_getD_last (P : Payoff α) (ex : α → α) (drift vol : α) (Z : ℕ → α) :
    ∀ (rem t : ℕ) (S : α),
      (genRows P ex drift vol Z t S rem).getD rem 0 =
        P.value (stepFold ex drift vol Z t S (rem + 1)) := by
  intro rem
  induction rem with
  | zero => intro t S; simp [genRows, stepFold]
  | succ rem ih =>
      intro t S
      show (genRows P ex drift vol Z (t + 1) (pathStep ex drift vol S (Z t)) rem).getD rem 0 = _
      rw [ih (t + 1), stepFold_shift]

theorem stepFold_eq_gbmPrice (r sigma dt S0 : ℝ) (Z : ℕ → ℝ) (k : ℕ) :
    stepFold Real.exp ((r - 0.5 * sigma * sigma) * dt) (sigma * Real.sqrt dt) Z 0 S0 k =
      gbmPrice r sigma dt S0 Z k := by
  induction k with
  | zero => rfl
  | succ k ih =>
      show pathStep _ _ _ _ (Z (0 + k)) = _
      rw [zero_add, pathStep, ih, gbmPrice,
        show (r - 0.5 * sigma * sigma) * dt + sigma * Real.sqrt dt * Z k =
          (r - sigma ^ 2 / 2) * dt + sigma * Real.sqrt dt * Z k by ring]

/-- C1.  For `0 ≤ t ≤ T-2` (stated as `t + 2 ≤ T` in `ℕ`), entry `(t, p)` of
the generated path matrix is the price `S_{t+1}` obtained by folding the GBM
recurrence from `S_0 = S0` over the samples `Z 0 p .. Z t p`; the final row
`T-1` holds the payoff of the terminal price `S_T`, seeding the cashflow
vector. -/
theorem path_generator_matrix (P : Payoff ℝ) (r sigma dt S0 : ℝ) (Z : ℕ → ℕ → ℝ)
    (T p : ℕ) (hT : 1 ≤ T) :
    (∀ t, t + 2 ≤ T →
      pathsEntry P Real.exp Real.sqrt T r sigma dt S0 Z t p =
        gbmPrice r sigma dt S0 (fun k => Z k p) (t + 1)) ∧
    pathsEntry P Real.exp Real.sqrt T r sigma dt S0 Z (T - 1) p =
      P.value (gbmPrice r sigma dt S0 (fun k => Z k p) T) := by
  constructor
  · intro t ht
    rw [pathsEntry, pathColumn,
      genRows_getD_lt P Real.exp ((r - 0.5 * sigma * sigma) * dt)
        (sigma * Real.sqrt dt) (fun k => Z k p) (T - 1) 0 S0 t (by omega),
      stepFold_eq_gbmPrice]
  · rw [pathsEntry, pathColumn, genRows_getD_last, stepFold_eq_gbmPrice,
      show T - 1 + 1 = T by omega]

/-- Witness for C1 at `T = 2`. -/
theorem path_generator_matrix_witness :
    1 ≤ 2 ∧
    pathsEntry (Payoff.mk true 4) Real.exp Real.sqrt 2 0 1 1 3 (fun _ _ => 0) (2 - 1) 0 =
      (Payoff.mk true 4).value (gbmPrice 0 1 1 3 (fun _ => 0) 2) :=
  ⟨by norm_num,
   (path_generator_matrix (Payoff.mk true 4) 0 1 1 3 (fun _ _ => 0) 2 0 (by norm_num)).2⟩

/-! ### Out-of-the-money flag, final beta, cashflow update -/

/-- End of `prepare_svd_kernel`: the block-wide in-the-money count `lsum` is
the number of paths of the timestep's row that pay off; the timestep is
flagged (`all_out_of_the_money[blockIdx.x] = 1`) exactly when it is below
`min_in_the_money`. -/
def outOfMoneyFlag {β : Type} (itm : β → Bool) (prices : List β) (minITM : ℕ) : Bool :=
  decide (prices.countP itm < minITM)

/-- `compute_final_beta_kernel`: on a flagged timestep it zero-fills the
three coefficients; otherwise it reduces the partial sums (modelled by the
already-summed triple). -/
def finalBeta (flag : Bool) (partials : α × α × α) : α × α × α :=
  if flag then (0, 0, 0) else partials

/-- `update_cashflow_kernel`, one path: the discounted carry-forward
`exp_min_r_dt * cashflows[path]` is kept on a flagged timestep, and
otherwise whenever the immediate payoff is at most `1e-8` or at most the
discounted regression estimate; in the remaining case the immediate payoff
is stored. -/
def updateCashflow (flag : Bool) (e : α) (beta : α × α × α) (prices cf : ℕ → α)
    (P : Payoff α) (p : ℕ) : α :=
  let old := e * cf p
  if flag then old
  else
    let S := prices p
    let v := P.value S
    let est := e * (beta.1 + beta.2.1 * S + beta.2.2 * (S * S))
    if v ≤ 1 / 10 ^ 8 ∨ v ≤ est then old else v

/-- C2.  When fewer than 4 paths of a timestep are in the money, the
timestep's flag is raised, the finalized regression coefficients are exactly
`(0, 0, 0)`, and every path's cashflow becomes exactly
`exp(-r*dt) * cashflow_old`. -/
theorem out_of_money_step (P : Payoff ℝ) (prices : List ℝ) (row cf : ℕ → ℝ)
    (r dt : ℝ) (beta partials : ℝ × ℝ × ℝ)
    (h : prices.countP P.itm < 4) :
    outOfMoneyFlag P.itm prices 4 = true ∧
    finalBeta (outOfMoneyFlag P.itm prices 4) partials = (0, 0, 0) ∧
    ∀ p, updateCashflow (outOfMoneyFlag P.itm prices 4) (Real.exp (-(r * dt)))
        beta row cf P p = Real.exp (-(r * dt)) * cf p := by
  have hf : outOfMoneyFlag P.itm prices 4 = true := by
    rw [outOfMoneyFlag, decide_eq_true_eq]
    exact h
  refine ⟨hf, ?_, ?_⟩
  · rw [hf]; rfl
  · intro p; rw [hf]; rfl

/-- Witness for C2 on an empty row (in-the-money count 0). -/
theorem out_of_money_step_witness :
    ([] : List ℝ).countP (Payoff.mk true 4).itm < 4 ∧
    updateCashflow (outOfMoneyFlag (Payoff.mk true 4).itm ([] : List ℝ) 4)
        (Real.exp (-(1 * 1))) (5, 6, 7) (fun _ => 2) (fun _ => 3)
        (Payoff.mk true 4) 0 = Real.exp (-(1 * 1)) * 3 :=
  ⟨by simp, (out_of_money_step (Payoff.mk true 4) [] (fun _ => 2) (fun _ => 3)
      1 1 (5, 6, 7) (0, 0, 0) (by simp)).2.2 0⟩

/-- C3.  On a non-flagged timestep, the new cashflow is the immediate payoff
exactly when that payoff exceeds `1e-8` and exceeds the discounted
continuation estimate `exp(-r*dt) * (b0 + b1*S + b2*S^2)`; otherwise it is
the discounted carry-forward. -/
theorem update_cashflow_rule (P : Payoff ℝ) (r dt : ℝ) (beta : ℝ × ℝ × ℝ)
    (prices cf : ℕ → ℝ) (p : ℕ) :
    updateCashflow false (Real.exp (-(r * dt))) beta prices cf P p =
      if 1 / 10 ^ 8 < P.value (prices p) ∧
          Real.exp (-(r * dt)) *
            (beta.1 + beta.2.1 * prices p + beta.2.2 * (prices p * prices p)) <
            P.value (prices p)
      then P.value (prices p)
      else Real.exp (-(r * dt)) * cf p := by
  have hred : updateCashflow false (Real.exp (-(r * dt))) beta prices cf P p =
      if P.value (prices p) ≤ 1 / 10 ^ 8 ∨
          P.value (prices p) ≤
            Real.exp (-(r * dt)) *
              (beta.1 + beta.2.1 * prices p + beta.2.2 * (prices p * prices p))
      then Real.exp (-(r * dt)) * cf p
      else P.value (prices p) := rfl
  rw [hred]
  by_cases h : P.value (prices p) ≤ 1 / 10 ^ 8 ∨
      P.value (prices p) ≤
        Real.exp (-(r * dt)) *
          (beta.1 + beta.2.1 * prices p + beta.2.2 * (prices p * prices p))
  · rw [if_pos h, if_neg]
    rintro ⟨ha, hb⟩
    rcases h with h | h <;> linarith
  · push_neg at h
    rw [if_neg (by push_neg; exact h), if_pos ⟨h.1, h.2⟩]

/-! ### Price Reducer (`compute_partial_sums_kernel`, `compute_final_sum_kernel`)

The partial kernel runs `⌈N/B⌉` blocks of `B` threads (`B = 128` in the
source, written `b + 1` here so the block size is positive by construction);
block `blk` sums the cashflows of paths `blk*B .. blk*B + B - 1` that exist.
The finalize kernel sums the block partials, multiplies by `exp(-r*dt)` and
divides by `N`. -/

/-- Partial per-block sum written by block `blk` of
`compute_partial_sums_kernel` (block size `b + 1`). -/
def partialSumsBlocked (b : ℕ) (cf : ℕ → α) (N blk : ℕ) : α :=
  ∑ i ∈ (Finset.range (b + 1)).filter (fun i => blk * (b + 1) + i < N), cf (blk * (b + 1) + i)

/-- `grid_dim = (num_paths + B - 1) / B` with block size `B = b + 1`. -/
def gridBlocks (b N : ℕ) : ℕ := (N + b) / (b + 1)

/-- `compute_final_sum_kernel`: `sums[0] = exp_min_r_dt * lsum / num_paths`
where `lsum` is the sum of the block partials. -/
def finalSumBlocked (e : α) (N b : ℕ) (cf : ℕ → α) : α :=
  e * (∑ blk ∈ Finset.range (gridBlocks b N), partialSumsBlocked b cf N blk) / N

theorem partialSumsBlocked_sum (b : ℕ) (cf : ℕ → α) (N : ℕ) :
    ∀ K, ∑ blk ∈ Finset.range K, partialSumsBlocked b cf N blk =
      ∑ p ∈ Finset.range (min (K * (b + 1)) N), cf p := by
  intro K
  induction K with
  | zero => simp
  | succ K ih =>
      rw [Finset.sum_range_succ, ih, partialSumsBlocked]
      have hfil : (Finset.range (b + 1)).filter (fun i => K * (b + 1) + i < N) =
          Finset.range (min (b + 1) (N - K * (b + 1))) := by
        ext i
        simp only [Finset.mem_filter, Finset.mem_range, lt_min_iff]
        omega
      rw [hfil]
      have hexp : (K + 1) * (b + 1) = K * (b + 1) + (b + 1) := by ring
      rcases le_or_lt N (K * (b + 1)) with h | h
      · have h0 : min (b + 1) (N - K * (b + 1)) = 0 := by omega
        have h1 : min ((K + 1) * (b + 1)) N = min (K * (b + 1)) N := by omega
        rw [h0, h1]
        simp
      · have ha : min (K * (b + 1)) N = K * (b + 1) := by omega
        have hsum : ∑ i ∈ Finset.range (min (b + 1) (N - K * (b + 1))),
            cf (K * (b + 1) + i) =
            ∑ p ∈ Finset.Ico (K * (b + 1))
              (K * (b + 1) + min (b + 1) (N - K * (b + 1))), cf p := by
          rw [Finset.sum_Ico_eq_sum_range]
          simp
        rw [ha, hsum, Finset.range_eq_Ico,
          Finset.sum_Ico_consecutive cf (by omega)
            (le_add_of_nonneg_right (Nat.zero_le _)),
          ← Finset.range_eq_Ico]
        have hidx : K * (b + 1) + min (b + 1) (N - K * (b + 1)) =
            min ((K + 1) * (b + 1)) N := by omega
        rw [hidx]

theorem finalSumBlocked_eq (e : α) (N b : ℕ) (cf : ℕ → α) :
    finalSumBlocked e N b cf = e * (∑ p ∈ Finset.range N, cf p) / N := by
  rw [finalSumBlocked, partialSumsBlocked_sum]
  have hge : N ≤ gridBlocks b N * (b + 1) := by
    rw [gridBlocks]
    have h1 := Nat.div_add_mod (N + b) (b + 1)
    have h2 : (N + b) % (b + 1) < b + 1 := Nat.mod_lt _ (by omega)
    have h3 : (b + 1) * ((N + b) / (b + 1)) = (N + b) / (b + 1) * (b + 1) :=
      Nat.mul_comm _ _
    omega
  rw [min_eq_right hge]

/-- C4.  The two-phase price reduction (per-block partial sums, then one
finalize pass) computes exactly `exp(-r*dt)` times the sum of the final
cashflow vector over all `N` paths, divided by `N`, for every final state
`cf` and every block size. -/
theorem price_reducer_exact (r dt : ℝ) (N b : ℕ) (cf : ℕ → ℝ) :
    finalSumBlocked (Real.exp (-(r * dt))) N b cf =
      Real.exp (-(r * dt)) * (∑ p ∈ Finset.range N, cf p) / N :=
  finalSumBlocked_eq (Real.exp (-(r * dt))) N b cf

/-! ### Seed selection in `prepare_svd_kernel`

The kernel walks the row in chunks of `NUM_THREADS_PER_BLOCK` paths
(`256` in the source; written `b + 1` here so the chunk size is positive by
construction).  In each chunk an exclusive prefix sum of the in-the-money
indicator gives each thread its rank `partial_sum`; while fewer than three
seeds have been found, an in-the-money thread with
`found_paths + partial_sum < 3` stores its price in that seed slot, and
`found_paths` then grows by the chunk's total count. -/

/-- Store `x` in seed slot `j` (`smem_svds[j] = S`). -/
def writeSeed {β : Type} (s : ℕ → β) (j : ℕ) (x : β) : ℕ → β :=
  fun i => if i = j then x else s i

/-- Seed writes of one chunk: `f` is `found_paths` (fixed during the chunk)
and `p` the thread's exclusive prefix count of in-the-money paths. -/
def chunkSeeds {β : Type} (itm : β → Bool) (f : ℕ) :
    List β → ℕ → (ℕ → β) → (ℕ → β)
  | [], _, s => s
  | x :: xs, p, s =>
      chunkSeeds itm f xs (p + if itm x then 1 else 0)
        (if itm x = true ∧ f + p < 3 then writeSeed s (f + p) x else s)

/-- The chunked scan of the whole row (chunk size `b + 1`), carrying
`found_paths` and the seed slots. -/
def seedScan {β : Type} (itm : β → Bool) (b : ℕ) :
    List β → ℕ → (ℕ → β) → ℕ × (ℕ → β)
  | [], f, s => (f, s)
  | x :: xs, f, s =>
      seedScan itm b ((x :: xs).drop (b + 1))
        (if f < 3 then f + ((x :: xs).take (b + 1)).countP itm else f)
        (if f < 3 then chunkSeeds itm f ((x :: xs).take (b + 1)) 0 s else s)
  termination_by l => l.length
  decreasing_by simp only [List.length_drop, List.length_cons]; omega

/-- One-element-at-a-time reference scan: the counter `c` ranks every
in-the-money element and the `k`-th one (for `k < 3`) lands in slot `k`. -/
def seqSeeds {β : Type} (itm : β → Bool) :
    List β → ℕ → (ℕ → β) → ℕ × (ℕ → β)
  | [], c, s => (c, s)
  | x :: xs, c, s =>
      seqSeeds itm xs (c + if itm x then 1 else 0)
        (if itm x = true ∧ c < 3 then writeSeed s c x else s)

theorem chunkSeeds_eq_seq {β : Type} (itm : β → Bool) (f : ℕ) :
    ∀ (l : List β) (p : ℕ) (s : ℕ → β),
      chunkSeeds itm f l p s = (seqSeeds itm l (f + p) s).2 := by
  intro l
  induction l with
  | nil => intro p s; rfl
  | cons x xs ih =>
      intro p s
      show chunkSeeds itm f xs _ _ = _
      rw [ih, show f + (p + if itm x then 1 else 0) =
        f + p + (if itm x then 1 else 0) by omega]
      rfl

theorem seqSeeds_fst {β : Type} (itm : β → Bool) :
    ∀ (l : List β) (c : ℕ) (s : ℕ → β),
      (seqSeeds itm l c s).1 = c + l.countP itm := by
  intro l
  induction l with
  | nil => intro c s; simp [seqSeeds]
  | cons x xs ih =>
      intro c s
      show (seqSeeds itm xs _ _).1 = _
      rw [ih, List.countP_cons]
      rcases hx : itm x
      · simp [hx]
      · simp [hx]
        omega

theorem seqSeeds_snd_of_ge {β : Type} (itm : β → Bool) :
    ∀ (l : List β) (c : ℕ) (s : ℕ → β), 3 ≤ c →
      (seqSeeds itm l c s).2 = s := by
  intro l
  induction l with
  | nil => intro c s _; rfl
  | cons x xs ih =>
      intro c s hc
      show (seqSeeds itm xs (c + if itm x then 1 else 0)
        (if itm x = true ∧ c < 3 then writeSeed s c x else s)).2 = s
      have h2 : (if itm x = true ∧ c < 3 then writeSeed s c x else s) = s :=
        if_neg (fun hand => absurd hand.2 (by omega))
      rw [h2, ih _ _ (by omega)]

theorem seqSeeds_append {β : Type} (itm : β → Bool) :
    ∀ (l1 l2 : List β) (c : ℕ) (s : ℕ → β),
      seqSeeds itm (l1 ++ l2) c s =
        seqSeeds itm l2 (seqSeeds itm l1 c s).1 (seqSeeds itm l1 c s).2 := by
  intro l1
  induction l1 with
  | nil => intro l2 c s; rfl
  | cons x xs ih =>
      intro l2 c s
      show seqSeeds itm (xs ++ l2) _ _ = _
      rw [ih]
      rfl

theorem seedScan_eq_seq {β : Type} (itm : β → Bool) (b : ℕ) :
    ∀ (n : ℕ) (l : List β) (f c : ℕ) (s : ℕ → β), l.length ≤ n →
      (f < 3 → f = c) → (3 ≤ f → 3 ≤ c) →
      (seedScan itm b l f s).2 = (seqSeeds itm l c s).2 := by
  intro n
  induction n with
  | zero =>
      intro l f c s hl _ _
      have : l = [] := List.length_eq_zero.mp (by omega)
      subst this
      rw [seedScan]
      rfl
  | succ n ih =>
      intro l f c s hl h1 h2
      match l with
      | [] =>
          rw [seedScan]
          rfl
      | x :: xs =>
          rw [seedScan]
          have hsplit : (x :: xs) = (x :: xs).take (b + 1) ++ (x :: xs).drop (b + 1) :=
            (List.take_append_drop _ _).symm
          by_cases hf : f < 3
          · rw [if_pos hf, if_pos hf, chunkSeeds_eq_seq]
            have hc : c = f := (h1 hf).symm
            subst hc
            rw [Nat.add_zero]
            conv_rhs => rw [hsplit]
            rw [seqSeeds_append]
            refine ih _ _ _ _ ?_ ?_ ?_
            · have hdl := List.length_drop (b + 1) (x :: xs)
              simp only [List.length_cons] at hdl hl
              omega
            · intro _; rw [seqSeeds_fst]
            · intro h
              rw [seqSeeds_fst]
              omega
          · rw [if_neg hf, if_neg hf]
            have hc3 : 3 ≤ c := h2 (by omega)
            conv_rhs => rw [hsplit]
            rw [seqSeeds_append, seqSeeds_snd_of_ge itm _ _ _ hc3]
            refine ih _ _ _ _ ?_ ?_ ?_
            · have hdl := List.length_drop (b + 1) (x :: xs)
              simp only [List.length_cons] at hdl hl
              omega
            · intro h; omega
            · intro _
              rw [seqSeeds_fst]
              omega

theorem seqSeeds_snd {β : Type} (itm : β → Bool) (d : β) :
    ∀ (l : List β) (c : ℕ) (s : ℕ → β) (k : ℕ), k < 3 →
      (k < c → (seqSeeds itm l c s).2 k = s k) ∧
      (c ≤ k → k - c < (l.filter itm).length →
        (seqSeeds itm l c s).2 k = (l.filter itm).getD (k - c) d) := by
  intro l
  induction l with
  | nil =>
      intro c s k _
      exact ⟨fun _ => rfl, fun _ h => by simp at h⟩
  | cons x xs ih =>
      intro c s k hk
      by_cases hx : itm x = true
      · by_cases hc : c < 3
        · have hcond : itm x = true ∧ c < 3 := ⟨hx, hc⟩
          have hbody : seqSeeds itm (x :: xs) c s =
              seqSeeds itm xs (c + 1) (writeSeed s c x) := by
            show seqSeeds itm xs (c + if itm x then 1 else 0)
              (if itm x = true ∧ c < 3 then writeSeed s c x else s) = _
            have h1 : (if itm x then (1 : ℕ) else 0) = 1 := if_pos hx
            have h2 : (if itm x = true ∧ c < 3 then writeSeed s c x else s) =
                writeSeed s c x := if_pos hcond
            rw [h1, h2]
          rw [hbody]
          constructor
          · intro hkc
            rw [(ih (c + 1) (writeSeed s c x) k hk).1 (by omega)]
            simp only [writeSeed]
            rw [if_neg (by omega)]
          · intro hck hlen
            rw [List.filter_cons_of_pos hx] at hlen ⊢
            rcases Nat.eq_or_lt_of_le hck with he | hlt
            · rw [← he]
              rw [(ih (c + 1) (writeSeed s c x) c (by omega)).1 (by omega)]
              simp [writeSeed]
            · rw [(ih (c + 1) (writeSeed s c x) k hk).2 (by omega)
                (by simp only [List.length_cons] at hlen; omega),
                show k - c = (k - (c + 1)) + 1 by omega]
              rfl
        · have hbody : seqSeeds itm (x :: xs) c s = seqSeeds itm xs (c + 1) s := by
            show seqSeeds itm xs (c + if itm x then 1 else 0)
              (if itm x = true ∧ c < 3 then writeSeed s c x else s) = _
            have h1 : (if itm x then (1 : ℕ) else 0) = 1 := if_pos hx
            have h2 : (if itm x = true ∧ c < 3 then writeSeed s c x else s) = s :=
              if_neg (fun hand => absurd hand.2 hc)
            rw [h1, h2]
          rw [hbody]
          constructor
          · intro hkc
            exact (ih (c + 1) s k hk).1 (by omega)
          · intro hck _
            omega
      · have hbody : seqSeeds itm (x :: xs) c s = seqSeeds itm xs c s := by
          show seqSeeds itm xs (c + if itm x then 1 else 0)
            (if itm x = true ∧ c < 3 then writeSeed s c x else s) = _
          have h1 : (if itm x then (1 : ℕ) else 0) = 0 := if_neg hx
          have h2 : (if itm x = true ∧ c < 3 then writeSeed s c x else s) = s :=
            if_neg (fun hand => hx hand.1)
          rw [h1, h2, Nat.add_zero]
        rw [hbody, List.filter_cons_of_neg (by simp [Bool.not_eq_true] at hx ⊢; exact hx)]
        exact ih c s k hk

theorem filter_getD_index {β : Type} (itm : β → Bool) (d : β) :
    ∀ (l : List β) (k : ℕ), k < (l.filter itm).length →
      ∃ i, i < l.length ∧ itm (l.getD i d) = true ∧
        l.getD i d = (l.filter itm).getD k d ∧
        (l.take i).countP itm = k := by
  intro l
  induction l with
  | nil => intro k hk; simp at hk
  | cons x xs ih =>
      intro k hk
      by_cases hx : itm x = true
      · rw [List.filter_cons_of_pos hx] at hk
        match k with
        | 0 =>
            refine ⟨0, by simp, by simpa using hx, ?_, by simp⟩
            rw [List.filter_cons_of_pos hx]
            rfl
        | k + 1 =>
            obtain ⟨i, hi, hitm, hval, hcnt⟩ :=
              ih k (by simp only [List.length_cons] at hk; omega)
            refine ⟨i + 1, by simp only [List.length_cons]; omega, hitm, ?_, ?_⟩
            · rw [List.filter_cons_of_pos hx]
              exact hval
            · rw [List.take_succ_cons, List.countP_cons_of_pos _ _ hx, hcnt]
      · rw [List.filter_cons_of_neg (by simp [hx])] at hk
        obtain ⟨i, hi, hitm, hval, hcnt⟩ := ih k hk
        refine ⟨i + 1, by simp only [List.length_cons]; omega, hitm, ?_, ?_⟩
        · rw [List.filter_cons_of_neg (by simp [hx])]
          exact hval
        · rw [List.take_succ_cons, List.countP_cons_of_neg _ _ (by simp [hx]), hcnt]

theorem countP_take_mono {β : Type} (itm : β → Bool) (l : List β) (i j : ℕ)
    (hij : i ≤ j) : (l.take i).countP itm ≤ (l.take j).countP itm := by
  have h1 : l.take i = (l.take j).take i := by
    rw [List.take_take, min_eq_left hij]
  rw [h1]
  exact List.Sublist.countP_le itm (List.take_sublist _ _)

/-- C5.  On a non-flagged timestep the three QR seed values produced by the
chunked scan are exactly the prices of the first three in-the-money paths:
there are indices `i0 < i1 < i2` of in-the-money paths, preceded by exactly
`0`, `1` and `2` in-the-money paths respectively, whose prices fill seed
slots `0`, `1`, `2`. -/
theorem regression_seed_selection {β : Type} (itm : β → Bool) (l : List β)
    (b : ℕ) (d : β) (s0 : ℕ → β)
    (hflag : outOfMoneyFlag itm l 4 = false) :
    ∃ i0 i1 i2 : ℕ, i0 < i1 ∧ i1 < i2 ∧ i2 < l.length ∧
      itm (l.getD i0 d) = true ∧ itm (l.getD i1 d) = true ∧
      itm (l.getD i2 d) = true ∧
      (seedScan itm b l 0 s0).2 0 = l.getD i0 d ∧
      (seedScan itm b l 0 s0).2 1 = l.getD i1 d ∧
      (seedScan itm b l 0 s0).2 2 = l.getD i2 d ∧
      (l.take i0).countP itm = 0 ∧ (l.take i1).countP itm = 1 ∧
      (l.take i2).countP itm = 2 := by
  have hcnt : 4 ≤ l.countP itm := by
    rw [outOfMoneyFlag, decide_eq_false_iff_not] at hflag
    omega
  have hlen : 4 ≤ (l.filter itm).length := by
    rw [← l.countP_eq_length_filter itm]
    exact hcnt
  obtain ⟨i0, hi0, hm0, hv0, hc0⟩ := filter_getD_index itm d l 0 (by omega)
  obtain ⟨i1, hi1, hm1, hv1, hc1⟩ := filter_getD_index itm d l 1 (by omega)
  obtain ⟨i2, hi2, hm2, hv2, hc2⟩ := filter_getD_index itm d l 2 (by omega)
  have h01 : i0 < i1 := by
    by_contra h
    have := countP_take_mono itm l i1 i0 (by omega)
    omega
  have h12 : i1 < i2 := by
    by_contra h
    have := countP_take_mono itm l i2 i1 (by omega)
    omega
  have hseed : ∀ k, k < 3 →
      (seedScan itm b l 0 s0).2 k = (l.filter itm).getD k d := by
    intro k hk
    rw [seedScan_eq_seq itm b l.length l 0 0 s0 le_rfl (fun _ => rfl)
      (by omega)]
    have := (seqSeeds_snd itm d l 0 s0 k hk).2 (by omega) (by omega)
    simpa using this
  exact ⟨i0, i1, i2, h01, h12, hi2, hm0, hm1, hm2,
    by rw [hseed 0 (by omega), hv0],
    by rw [hseed 1 (by omega), hv1],
    by rw [hseed 2 (by omega), hv2], hc0, hc1, hc2⟩

/-- Witness for C5: row `[5, 0, 1, 2, 3]` with threshold predicate `< 4`
has four in-the-money entries, so the timestep is not flagged. -/
theorem regression_seed_selection_witness :
    outOfMoneyFlag (fun n => decide (n < 4)) [5, 0, 1, 2, 3] 4 = false ∧
    (∃ i0 i1 i2 : ℕ, i0 < i1 ∧ i1 < i2 ∧ i2 < [5, 0, 1, 2, 3].length ∧
      (fun n => decide (n < 4)) ([5, 0, 1, 2, 3].getD i0 9) = true ∧
      (fun n => decide (n < 4)) ([5, 0, 1, 2, 3].getD i1 9) = true ∧
      (fun n => decide (n < 4)) ([5, 0, 1, 2, 3].getD i2 9) = true ∧
      (seedScan (fun n => decide (n < 4)) 255 [5, 0, 1, 2, 3] 0 (fun _ => 0)).2 0 =
        [5, 0, 1, 2, 3].getD i0 9 ∧
      (seedScan (fun n => decide (n < 4)) 255 [5, 0, 1, 2, 3] 0 (fun _ => 0)).2 1 =
        [5, 0, 1, 2, 3].getD i1 9 ∧
      (seedScan (fun n => decide (n < 4)) 255 [5, 0, 1, 2, 3] 0 (fun _ => 0)).2 2 =
        [5, 0, 1, 2, 3].getD i2 9 ∧
      ([5, 0, 1, 2, 3].take i0).countP (fun n => decide (n < 4)) = 0 ∧
      ([5, 0, 1, 2, 3].take i1).countP (fun n => decide (n < 4)) = 1 ∧
      ([5, 0, 1, 2, 3].take i2).countP (fun n => decide (n < 4)) = 2) :=
  ⟨by decide,
   regression_seed_selection (fun n : ℕ => decide (n < 4)) [5, 0, 1, 2, 3] 255 9
     (fun _ => 0) (by decide)⟩

/-! ### `assemble_R`, `svd_3x3` and the per-timestep regression state

`assemble_R` runs the incremental 3-step Householder QR on the three seed
values and four power sums, producing the compact upper triangle
`R00 R01 R02 R11 R12 R22`; `svd_3x3` then diagonalises `A = RᵀR` with a
cyclic Jacobi sweep (at most 16 iterations, tolerance `1e-12`), sorts the
eigenpairs, inverts the eigenvalues with a zero guard and stores the
compact `W` half of `V·Σ⁻¹·Vᵀ·Rᵀ` (the default, `WITH_FULL_W_MATRIX`
undefined, 12-slot build).  `sq` is the device square root. -/

def assembleR (sq : α → α) (m : ℕ) (sums : α × α × α × α) (x0 x1 x2 : α) :
    α × α × α × α × α × α :=
  let x0_sq := x0 * x0
  let sum1 := sums.1 - x0
  let sum2 := sums.2.1 - x0_sq
  let sum3 := sums.2.2.1 - x0_sq * x0
  let sum4 := sums.2.2.2 - x0_sq * x0_sq
  let mdbl : α := (m : α)
  let sigma1 := mdbl - 1
  let mu1 := sq mdbl
  let v01 := -sigma1 / (1 + mu1)
  let v0_sq1 := v01 * v01
  let beta1 := 2 * v0_sq1 / (sigma1 + v0_sq1)
  let inv_v01 := 1 / v01
  let one_min_beta1 := 1 - beta1
  let beta_div_v01 := beta1 * inv_v01
  let r00 := mu1
  let r01 := one_min_beta1 * x0 - beta_div_v01 * sum1
  let r02 := one_min_beta1 * x0_sq - beta_div_v01 * sum2
  let beta_div_v0_sq := beta_div_v01 * inv_v01
  let c1 := beta_div_v0_sq * sum1 + beta_div_v01 * x0
  let c2 := beta_div_v0_sq * sum2 + beta_div_v01 * x0_sq
  -- 2nd step of QR
  let x1_sq := x1 * x1
  let sum1b := sum1 - x1
  let sum2b := sum2 - x1_sq
  let sum3b := sum3 - x1_sq * x1
  let sum4b := sum4 - x1_sq * x1_sq
  let y0 := x1 - c1
  let y0_sq := y0 * y0
  let sigma2 := sum2b - 2 * c1 * sum1b + (mdbl - 2) * c1 * c1
  let bv2 : α × α :=
    if |sigma2| < 1 / 10 ^ 16 then (0, v01)
    else
      let mu2 := sq (y0_sq + sigma2)
      let v02 := if y0 ≤ 0 then y0 - mu2 else -sigma2 / (y0 + mu2)
      (2 * (v02 * v02) / (sigma2 + v02 * v02), v02)
  let beta2 := bv2.1
  let inv_v02 := 1 / bv2.2
  let beta_div_v02 := beta2 * inv_v02
  let c3 := (sum3b - c1 * sum2b - c2 * sum1b + (mdbl - 2) * c1 * c2) * beta_div_v02
  let c4 := (x1_sq - c2) * beta_div_v02 + c3 * inv_v02
  let c5 := c1 * c4 - c2
  let one_min_beta2 := 1 - beta2
  let r11 := one_min_beta2 * y0 - beta_div_v02 * sigma2
  let r12 := one_min_beta2 * (x1_sq - c2) - c3
  -- 3rd step of QR
  let x2_sq := x2 * x2
  let sum1c := sum1b - x2
  let sum2c := sum2b - x2_sq
  let sum3c := sum3b - x2_sq * x2
  let sum4c := sum4b - x2_sq * x2_sq
  let z0 := x2_sq - c4 * x2 + c5
  let sigma3 := sum4c - 2 * c4 * sum3c + (c4 * c4 + 2 * c5) * sum2c -
      2 * c4 * c5 * sum1c + (mdbl - 3) * c5 * c5
  let bv3 : α × α :=
    if |sigma3| < 1 / 10 ^ 12 then (0, bv2.2)
    else
      let mu3 := sq (z0 * z0 + sigma3)
      let v03 := if z0 ≤ 0 then z0 - mu3 else -sigma3 / (z0 + mu3)
      (2 * (v03 * v03) / (sigma3 + v03 * v03), v03)
  let r22 := (1 - bv3.1) * z0 - bv3.1 / bv3.2 * sigma3
  (r00, r01, r02, r11, r12, r22)
  -- `sum1c`, `sum3c` and `sum4c` (and `sum4b`) keep the running sums of the
  -- kernel; only `sigma3` consumes them.

/-- The running Jacobi state: the symmetric matrix `A` (upper triangle) and
the accumulated eigenvector matrix `V`. -/
structure JacobiSt (α : Type) where
  A00 : α
  A01 : α
  A02 : α
  A11 : α
  A12 : α
  A22 : α
  V00 : α
  V01 : α
  V02 : α
  V10 : α
  V11 : α
  V12 : α
  V20 : α
  V21 : α
  V22 : α

/-- `off_diag_norm(A01, A02, A12)`. -/
def offDiagNorm (sq : α → α) (a01 a02 a12 : α) : α :=
  sq (2 * (a01 * a01 + a02 * a02 + a12 * a12))

/-- The Jacobi rotation coefficients `(c, s)` for the diagonal pair
`(app, aqq)` and off-diagonal entry `apq`
(`c = 1, s = 0` when `apq` is zero). -/
def jacobiCS (sq : α → α) (app aqq apq : α) : α × α :=
  if apq ≠ 0 then
    let tau := (aqq - app) / (2 * apq)
    let sgn : α := if tau < 0 then -1 else 1
    let t := sgn / (sgn * tau + sq (1 + tau * tau))
    let c := 1 / sq (1 + t * t)
    (c, t * c)
  else (1, 0)

/-- Jacobi rotation for the pair `p = 0`, `q = 1`. -/
def rot1 (sq : α → α) (st : JacobiSt α) : JacobiSt α :=
  let cs := jacobiCS sq st.A00 st.A11 st.A01
  let c := cs.1
  let s := cs.2
  let B00 := c * st.A00 - s * st.A01
  let B01 := s * st.A00 + c * st.A01
  let B10 := c * st.A01 - s * st.A11
  let B11 := s * st.A01 + c * st.A11
  let B02 := st.A02
  { st with
    A00 := c * B00 - s * B10
    A01 := c * B01 - s * B11
    A11 := s * B01 + c * B11
    A02 := c * B02 - s * st.A12
    A12 := s * B02 + c * st.A12
    V00 := c * st.V00 - s * st.V01
    V01 := s * st.V00 + c * st.V01
    V10 := c * st.V10 - s * st.V11
    V11 := s * st.V10 + c * st.V11
    V20 := c * st.V20 - s * st.V21
    V21 := s * st.V20 + c * st.V21 }

/-- Jacobi rotation for the pair `p = 0`, `q = 2`. -/
def rot2 (sq : α → α) (st : JacobiSt α) : JacobiSt α :=
  let cs := jacobiCS sq st.A00 st.A22 st.A02
  let c := cs.1
  let s := cs.2
  let B00 := c * st.A00 - s * st.A02
  let B01 := c * st.A01 - s * st.A12
  let B02 := s * st.A00 + c * st.A02
  let B20 := c * st.A02 - s * st.A22
  let B22 := s * st.A02 + c * st.A22
  { st with
    A00 := c * B00 - s * B20
    A12 := s * st.A01 + c * st.A12
    A02 := c * B02 - s * B22
    A22 := s * B02 + c * B22
    A01 := B01
    V00 := c * st.V00 - s * st.V02
    V02 := s * st.V00 + c * st.V02
    V10 := c * st.V10 - s * st.V12
    V12 := s * st.V10 + c * st.V12
    V20 := c * st.V20 - s * st.V22
    V22 := s * st.V20 + c * st.V22 }

/-- Jacobi rotation for the pair `p = 1`, `q = 2`. -/
def rot3 (sq : α → α) (st : JacobiSt α) : JacobiSt α :=
  let cs := jacobiCS sq st.A11 st.A22 st.A12
  let c := cs.1
  let s := cs.2
  let B02 := s * st.A01 + c * st.A02
  let B11 := c * st.A11 - s * st.A12
  let B12 := s * st.A11 + c * st.A12
  let B21 := c * st.A12 - s * st.A22
  let B22 := s * st.A12 + c * st.A22
  { st with
    A01 := c * st.A01 - s * st.A02
    A02 := B02
    A11 := c * B11 - s * B21
    A12 := c * B12 - s * B22
    A22 := s * B12 + c * B22
    V01 := c * st.V01 - s * st.V02
    V02 := s * st.V01 + c * st.V02
    V11 := c * st.V11 - s * st.V12
    V12 := s * st.V11 + c * st.V12
    V21 := c * st.V21 - s * st.V22
    V22 := s * st.V21 + c * st.V22 }

/-- The Jacobi iteration: while the off-diagonal norm is at least `1e-12`
and iterations remain (16 at the top level), run one cyclic sweep of the
three rotations. -/
def jacobiLoop (sq : α → α) : ℕ → JacobiSt α → JacobiSt α
  | 0, st => st
  | n + 1, st =>
      if offDiagNorm sq st.A01 st.A02 st.A12 < 1 / 10 ^ 12 then st
      else jacobiLoop sq n (rot3 sq (rot2 sq (rot1 sq st)))

/-- The three pairwise conditional swaps ordering the eigenpairs
(`0 vs 1`, `0 vs 2`, `1 vs 2`), each also exchanging eigenvector columns. -/
def sortEig (st : JacobiSt α) : JacobiSt α :=
  let st1 := if st.A00 < st.A11 then
    { st with A00 := st.A11, A11 := st.A00,
              V00 := st.V01, V01 := st.V00,
              V10 := st.V11, V11 := st.V10,
              V20 := st.V21, V21 := st.V20 } else st
  let st2 := if st1.A00 < st1.A22 then
    { st1 with A00 := st1.A22, A22 := st1.A00,
               V00 := st1.V02, V02 := st1.V00,
               V10 := st1.V12, V12 := st1.V10,
               V20 := st1.V22, V22 := st1.V20 } else st1
  if st2.A11 < st2.A22 then
    { st2 with A11 := st2.A22, A22 := st2.A11,
               V01 := st2.V02, V02 := st2.V01,
               V11 := st2.V12, V12 := st2.V11,
               V21 := st2.V22, V22 := st2.V21 } else st2

/-- Zero-guarded eigenvalue reciprocal:
`abs(A) < 1.0e-12 ? 0.0 : 1.0 / A`. -/
def invEigGuard (a : α) : α := if |a| < 1 / 10 ^ 12 then 0 else 1 / a

/-- Zero-guarded reciprocal of an `R` diagonal entry:
`R != 0.0 ? __drcp_rn(R) : 0.0`. -/
def invDiagGuard (a : α) : α := if a ≠ 0 then 1 / a else 0

/-- The persisted `RegressionState`: the compact `R` triangle in slots 0-5
and the compact `W` half in slots 6-11. -/
structure Svd (α : Type) where
  r00 : α
  r01 : α
  r02 : α
  r11 : α
  r12 : α
  r22 : α
  w00 : α
  w01 : α
  w02 : α
  w11 : α
  w12 : α
  w22 : α

/-- `svd_3x3`: assemble `R`, diagonalise `A = RᵀR`, sort, invert the
eigenvalues with the zero guard and store `R` and the compact `W`. -/
def svd3x3 (sq : α → α) (m : ℕ) (sums : α × α × α × α) (x0 x1 x2 : α) : Svd α :=
  let R := assembleR sq m sums x0 x1 x2
  let r00 := R.1
  let r01 := R.2.1
  let r02 := R.2.2.1
  let r11 := R.2.2.2.1
  let r12 := R.2.2.2.2.1
  let r22 := R.2.2.2.2.2
  let st0 : JacobiSt α :=
    ⟨r00 * r00, r00 * r01, r00 * r02,
     r01 * r01 + r11 * r11, r01 * r02 + r11 * r12,
     r02 * r02 + r12 * r12 + r22 * r22,
     1, 0, 0, 0, 1, 0, 0, 0, 1⟩
  let st := sortEig (jacobiLoop sq 16 st0)
  let invS0 := invEigGuard st.A00
  let invS1 := invEigGuard st.A11
  let invS2 := invEigGuard st.A22
  let U00 := st.V00 * invS0
  let U01 := st.V01 * invS1
  let U02 := st.V02 * invS2
  let U10 := st.V10 * invS0
  let U11 := st.V11 * invS1
  let U12 := st.V12 * invS2
  let U20 := st.V20 * invS0
  let U21 := st.V21 * invS1
  let U22 := st.V22 * invS2
  let B00 := U00 * st.V00 + U01 * st.V01 + U02 * st.V02
  let B01 := U00 * st.V10 + U01 * st.V11 + U02 * st.V12
  let B02 := U00 * st.V20 + U01 * st.V21 + U02 * st.V22
  let B11 := U10 * st.V10 + U11 * st.V11 + U12 * st.V12
  let B12 := U10 * st.V20 + U11 * st.V21 + U12 * st.V22
  let B22 := U20 * st.V20 + U21 * st.V21 + U22 * st.V22
  ⟨r00, r01, r02, r11, r12, r22,
   B00 * r00 + B01 * r01 + B02 * r02, B01 * r11 + B02 * r12, B02 * r22,
   B11 * r11 + B12 * r12, B12 * r22, B22 * r22⟩

/-! ### Coefficient Estimator (`compute_partial_beta_kernel`) -/

/-- The per-path row `{WI0, WI1, WI2}` of the pseudo-inverse, rebuilt from
`R`'s zero-guarded reciprocals and the path's price `S` without
materialising `Q` (compact-`W` build). -/
def betaWeights (sv : Svd α) (S : α) : α × α × α :=
  let invR00 := invDiagGuard sv.r00
  let invR11 := invDiagGuard sv.r11
  let invR22 := invDiagGuard sv.r22
  let invR01 := invR00 * invR11 * sv.r01
  let invR02 := invR00 * invR22 * sv.r02
  let invR12 := invR22 * sv.r12
  let invW00 := sv.w00 * invR00
  let Q1 := invR11 * S - invR01
  let Q2 := invR22 * S * S - invR02 - Q1 * invR12
  (invW00 + sv.w01 * Q1 + sv.w02 * Q2,
   sv.w11 * Q1 + sv.w12 * Q2,
   sv.w22 * Q2)

/-- The reduced beta sums over all paths: each path contributes its weight
row times its cashflow, the cashflow being read as `0` when the path is out
of the money. -/
def partialBeta (itm : α → Bool) (sv : Svd α) (prices cf : ℕ → α) (N : ℕ) :
    α × α × α :=
  (∑ p ∈ Finset.range N,
      (betaWeights sv (prices p)).1 * (if itm (prices p) then cf p else 0),
   ∑ p ∈ Finset.range N,
      (betaWeights sv (prices p)).2.1 * (if itm (prices p) then cf p else 0),
   ∑ p ∈ Finset.range N,
      (betaWeights sv (prices p)).2.2 * (if itm (prices p) then cf p else 0))

/-! ### C8: the three-comparison eigenpair sort -/

/-- The three eigenpairs of a Jacobi state: eigenvalue plus its eigenvector
column. -/
def eigPairs (st : JacobiSt α) : Multiset (α × α × α × α) :=
  {(st.A00, st.V00, st.V10, st.V20),
   (st.A11, st.V01, st.V11, st.V21),
   (st.A22, st.V02, st.V12, st.V22)}

theorem mswapAB {γ : Type} (a b c : γ) : ({a, b, c} : Multiset γ) = {b, a, c} :=
  Multiset.cons_swap a b {c}

theorem mswapBC {γ : Type} (a b c : γ) : ({a, b, c} : Multiset γ) = {a, c, b} :=
  congrArg (a ::ₘ ·) (Multiset.cons_swap b c 0)

theorem mswapAC {γ : Type} (a b c : γ) : ({a, b, c} : Multiset γ) = {c, b, a} := by
  rw [mswapAB, mswapBC, mswapAB]

/-- C8.  The three pairwise conditional swaps (`0 vs 1`, `0 vs 2`,
`1 vs 2`) leave the diagonal sorted descending, `A00 ≥ A11 ≥ A22`, for every
input, and the multiset of (eigenvalue, eigenvector-column) pairs is
preserved: the fixed three-comparison sort is exact. -/
theorem eigen_sort_exact (st : JacobiSt ℝ) :
    (sortEig st).A11 ≤ (sortEig st).A00 ∧ (sortEig st).A22 ≤ (sortEig st).A11 ∧
    eigPairs (sortEig st) = eigPairs st := by
  simp only [sortEig]
  split_ifs <;>
    refine ⟨by (try dsimp only); linarith, by (try dsimp only); linarith, ?_⟩ <;>
    simp only [eigPairs] <;>
    first
      | rfl
      | exact mswapAB _ _ _
      | exact mswapBC _ _ _
      | exact mswapAC _ _ _
      | exact (mswapAB _ _ _).trans (mswapBC _ _ _)
      | exact (mswapBC _ _ _).trans (mswapAB _ _ _)

/-- C9.  Both reciprocals of the regression pipeline are zero-guarded: the
eigenvalue reciprocal used in `svd_3x3` returns `0` below the `1e-12`
magnitude threshold and is a true inverse otherwise, and the `R`-diagonal
reciprocal used in `compute_partial_beta_kernel` returns `0` at `0` and is a
true inverse otherwise — no division by a zero pivot or zero eigenvalue is
ever performed. -/
theorem reciprocal_zero_guard (a : ℝ) :
    (|a| < 1 / 10 ^ 12 → invEigGuard a = 0) ∧
    (¬|a| < 1 / 10 ^ 12 → invEigGuard a * a = 1) ∧
    invDiagGuard (0 : ℝ) = 0 ∧
    (a ≠ 0 → invDiagGuard a * a = 1) := by
  refine ⟨fun h => if_pos h, fun h => ?_, ?_, fun h => ?_⟩
  · rw [invEigGuard, if_neg h]
    have ha : a ≠ 0 := by
      intro h0
      rw [h0] at h
      norm_num at h
    field_simp
  · rw [invDiagGuard, if_neg (fun hh => hh rfl)]
  · rw [invDiagGuard, if_pos h]
    field_simp

/-- Witness for C9 at `a = 2`. -/
theorem reciprocal_zero_guard_witness :
    ¬|(2 : ℝ)| < 1 / 10 ^ 12 ∧ invEigGuard (2 : ℝ) * 2 = 1 ∧
    invDiagGuard (2 : ℝ) * 2 = 1 :=
  ⟨by norm_num, (reciprocal_zero_guard 2).2.1 (by norm_num),
   (reciprocal_zero_guard 2).2.2.2 (by norm_num)⟩

/-! ### Backward Induction Driver (`do_run`)

The driver generates the path matrix, flags each timestep (threshold 4),
prepares its regression state, then walks `timestep = T-2 .. 0`, each step
running the two beta kernels and the cashflow update on the cashflow vector
(the last matrix row), and finally reduces the cashflow vector to the price.
The per-timestep power sums of `prepare_svd_kernel` (`Σx, Σx², Σx³, Σx⁴`
over in-the-money paths) are the four components of `powSums`. -/

/-- The four power sums accumulated over in-the-money paths. -/
def powSums (itm : α → Bool) (l : List α) : α × α × α × α :=
  (((l.filter itm).map fun x => x).sum,
   ((l.filter itm).map fun x => x * x).sum,
   ((l.filter itm).map fun x => x * x * x).sum,
   ((l.filter itm).map fun x => x * x * (x * x)).sum)

/-- All inputs of one `do_run` call: the device intrinsics, the sizes, the
payoff and the market parameters, and the Gaussian sample matrix. -/
structure MCInputs (α : Type) where
  ex : α → α
  sq : α → α
  T : ℕ
  N : ℕ
  pay : Payoff α
  dt : α
  S0 : α
  r : α
  sigma : α
  Z : ℕ → ℕ → α

/-- The discount constant `exp_min_r_dt = exp(-r*dt)`. -/
def MCInputs.disc (c : MCInputs α) : α := c.ex (-(c.r * c.dt))

/-- Entry `(t, p)` of the device path matrix of this run. -/
def MCInputs.entry (c : MCInputs α) (t p : ℕ) : α :=
  pathsEntry c.pay c.ex c.sq c.T c.r c.sigma c.dt c.S0 c.Z t p

/-- Row `t` of the path matrix as a list over the `N` paths. -/
def MCInputs.row (c : MCInputs α) (t : ℕ) : List α :=
  (List.range c.N).map fun p => c.entry t p

/-- The `OutOfMoneyFlag` of timestep `t` (`min_in_the_money = 4`). -/
def MCInputs.flag (c : MCInputs α) (t : ℕ) : Bool :=
  outOfMoneyFlag c.pay.itm (c.row t) 4

/-- The `RegressionState` of timestep `t`: `svd_3x3` on the in-the-money
count, power sums and the three scanned seed prices
(`NUM_THREADS_PER_BLOCK = 256 = 255 + 1`). -/
def MCInputs.svdAt (c : MCInputs α) (t : ℕ) : Svd α :=
  svd3x3 c.sq ((c.row t).countP c.pay.itm) (powSums c.pay.itm (c.row t))
    ((seedScan c.pay.itm 255 (c.row t) 0 fun _ => 0).2 0)
    ((seedScan c.pay.itm 255 (c.row t) 0 fun _ => 0).2 1)
    ((seedScan c.pay.itm 255 (c.row t) 0 fun _ => 0).2 2)

/-- The finalized `BetaVector` of timestep `t` for cashflows `cf`. -/
def MCInputs.betaAt (c : MCInputs α) (t : ℕ) (cf : ℕ → α) : α × α × α :=
  finalBeta (c.flag t) (partialBeta c.pay.itm (c.svdAt t) (fun p => c.entry t p) cf c.N)

/-- One loop iteration of `do_run`: both beta kernels then the cashflow
update of timestep `t`. -/
def MCInputs.stepAt (c : MCInputs α) (t : ℕ) (cf : ℕ → α) : ℕ → α :=
  updateCashflow (c.flag t) c.disc (c.betaAt t cf) (fun p => c.entry t p) cf c.pay

/-- The cashflow vector after `k` backward steps: seeded by the terminal
row, then updated at timesteps `T-2, T-3, ..., T-1-k`. -/
def MCInputs.cashAt (c : MCInputs α) : ℕ → ℕ → α
  | 0 => fun p => c.entry (c.T - 1) p
  | k + 1 => c.stepAt (c.T - 1 - (k + 1)) (c.cashAt k)

/-- The price of the run: the two-phase reduction of the final cashflow
vector (`NUM_THREADS_PER_BLOCK4 = 128 = 127 + 1`). -/
def MCInputs.price (c : MCInputs α) : α :=
  finalSumBlocked c.disc c.N 127 (c.cashAt (c.T - 1))

/-- Row `T-1` (the initial cashflow vector) is the payoff of the terminal
GBM price, for every path. -/
theorem pathsEntry_last (P : Payoff ℝ) (r sigma dt S0 : ℝ) (Z : ℕ → ℕ → ℝ)
    (T p : ℕ) :
    pathsEntry P Real.exp Real.sqrt T r sigma dt S0 Z (T - 1) p =
      P.value (gbmPrice r sigma dt S0 (fun k => Z k p) (T - 1 + 1)) := by
  rw [pathsEntry, pathColumn, genRows_getD_last, stepFold_eq_gbmPrice]

/-- A flagged-timestep cashflow update is the pure discounted
carry-forward. -/
theorem updateCashflow_flagged (e : α) (beta : α × α × α) (prices cf : ℕ → α)
    (P : Payoff α) (p : ℕ) :
    updateCashflow true e beta prices cf P p = e * cf p := rfl

theorem cashAt_all_flagged (c : MCInputs α) (hflag : ∀ t, c.flag t = true) :
    ∀ k p, c.cashAt k p = c.disc ^ k * c.cashAt 0 p := by
  intro k
  induction k with
  | zero => intro p; rw [pow_zero, one_mul]
  | succ k ih =>
      intro p
      show c.stepAt (c.T - 1 - (k + 1)) (c.cashAt k) p = _
      rw [MCInputs.stepAt, hflag, updateCashflow_flagged, ih, pow_succ]
      ring

theorem price_all_flagged (c : MCInputs α) (hT : 1 ≤ c.T)
    (hflag : ∀ t, c.flag t = true) :
    c.price = c.disc ^ c.T * (∑ p ∈ Finset.range c.N, c.cashAt 0 p) / c.N := by
  rw [MCInputs.price, finalSumBlocked_eq]
  have hsum : ∑ p ∈ Finset.range c.N, c.cashAt (c.T - 1) p =
      c.disc ^ (c.T - 1) * ∑ p ∈ Finset.range c.N, c.cashAt 0 p := by
    rw [Finset.mul_sum]
    exact Finset.sum_congr rfl fun p _ => cashAt_all_flagged c hflag (c.T - 1) p
  rw [hsum]
  obtain ⟨k, hk⟩ : ∃ k, c.T = k + 1 := ⟨c.T - 1, by omega⟩
  rw [hk]
  simp only [Nat.add_sub_cancel]
  rw [pow_succ]
  ring

theorem countP_row_lt (c : MCInputs α) (t : ℕ) (h : c.N < 4) :
    c.flag t = true := by
  rw [MCInputs.flag, outOfMoneyFlag, decide_eq_true_eq]
  have hle := List.countP_le_length (p := c.pay.itm) (l := c.row t)
  have hlen : (c.row t).length = c.N := by
    rw [MCInputs.row]
    simp
  omega

/-- C6.  With fewer than 4 paths the in-the-money minimum can never be met,
every timestep takes the carry-forward branch, and the final price is the
pure discounted average of the terminal payoffs,
`exp(-r*dt*T) * (Σ_p payoff(S_T p)) / N`. -/
theorem small_path_count_price (T N : ℕ) (pay : Payoff ℝ) (dt S0 r sigma : ℝ)
    (Z : ℕ → ℕ → ℝ) (hN : N < 4) (hT : 1 ≤ T) :
    (MCInputs.mk Real.exp Real.sqrt T N pay dt S0 r sigma Z).price =
      Real.exp (-(r * dt * T)) *
        (∑ p ∈ Finset.range N,
          pay.value (gbmPrice r sigma dt S0 (fun k => Z k p) T)) / N := by
  set c : MCInputs ℝ := MCInputs.mk Real.exp Real.sqrt T N pay dt S0 r sigma Z with hc
  have hflag : ∀ t, c.flag t = true := fun t => countP_row_lt c t hN
  rw [price_all_flagged c hT hflag]
  have hcash0 : ∀ p, c.cashAt 0 p =
      pay.value (gbmPrice r sigma dt S0 (fun k => Z k p) T) := by
    intro p
    show c.entry (c.T - 1) p = _
    rw [MCInputs.entry, hc, pathsEntry_last,
      show T - 1 + 1 = T by omega]
  rw [Finset.sum_congr rfl fun p _ => hcash0 p]
  have hdisc : c.disc ^ c.T = Real.exp (-(r * dt * T)) := by
    show Real.exp (-(r * dt)) ^ T = _
    rw [← Real.exp_nat_mul]
    congr 1
    ring
  rw [hdisc]

/-- Witness for C6 at `T = 2`, `N = 1`. -/
theorem small_path_count_price_witness :
    1 < 4 ∧ 1 ≤ 2 ∧
    (MCInputs.mk Real.exp Real.sqrt 2 1 (Payoff.mk true 4) 1 3 0 1
        (fun _ _ => 0)).price =
      Real.exp (-(0 * 1 * ((2 : ℕ) : ℝ))) *
        (∑ _p ∈ Finset.range 1,
          (Payoff.mk (α := ℝ) true 4).value
            (gbmPrice 0 1 1 3 (fun _ => 0) 2)) / ((1 : ℕ) : ℝ) :=
  ⟨by norm_num, by norm_num,
   small_path_count_price 2 1 (Payoff.mk true 4) 1 3 0 1 (fun _ _ => 0)
     (by norm_num) (by norm_num)⟩

/-- C10.  Payoffs are nonnegative, every cashflow vector of the backward
induction is nonnegative at every stage, and the final price is
nonnegative. -/
theorem cashflow_nonneg (T N : ℕ) (pay : Payoff ℝ) (dt S0 r sigma : ℝ)
    (Z : ℕ → ℕ → ℝ) :
    (∀ S : ℝ, 0 ≤ pay.value S) ∧
    (∀ k p, 0 ≤ (MCInputs.mk Real.exp Real.sqrt T N pay dt S0 r sigma Z).cashAt k p) ∧
    0 ≤ (MCInputs.mk Real.exp Real.sqrt T N pay dt S0 r sigma Z).price := by
  set c : MCInputs ℝ := MCInputs.mk Real.exp Real.sqrt T N pay dt S0 r sigma Z with hc
  have hval : ∀ (P : Payoff ℝ) (S : ℝ), 0 ≤ P.value S := by
    intro P S
    rw [Payoff.value]
    split_ifs <;> exact le_max_right _ _
  have hdisc : 0 < c.disc := Real.exp_pos _
  have hcash : ∀ k p, 0 ≤ c.cashAt k p := by
    intro k
    induction k with
    | zero =>
        intro p
        show 0 ≤ c.entry (c.T - 1) p
        rw [MCInputs.entry, hc, pathsEntry_last]
        exact hval _ _
    | succ k ih =>
        intro p
        show 0 ≤ updateCashflow (c.flag (c.T - 1 - (k + 1))) c.disc _ _ (c.cashAt k) c.pay p
        rw [updateCashflow]
        rcases c.flag (c.T - 1 - (k + 1)) with _ | _
        · simp only [Bool.false_eq_true, if_false]
          split_ifs
          · exact mul_nonneg hdisc.le (ih p)
          · exact hval _ _
        · simp only [if_true]
          exact mul_nonneg hdisc.le (ih p)

  refine ⟨hval pay, hcash, ?_⟩
  rw [MCInputs.price, finalSumBlocked_eq]
  apply div_nonneg _ (Nat.cast_nonneg _)
  exact mul_nonneg hdisc.le (Finset.sum_nonneg fun p _ => hcash _ p)

/-! ### A concrete run where the LSM price drops below the European bound

Two timesteps, four paths, put with strike 2, `r = 0`, `sigma = 2`,
`dt = 1`, `S0 = 1`, samples `Z 0 p = 1` and `Z 1 p = 0`.  Every path has
price exactly `1` at timestep 0 (the sample cancels the drift) and terminal
payoff `2 - exp(-2)`.  The regression design matrix is rank one; after one
exact Jacobi sweep the eigenvalues are `(12, 0, 0)`, the two zero
eigenvalues are pruned by the `1e-12` guard, and the surviving direction
yields `beta = (Σcf/12, 0, 0)` — an underestimate of the continuation value
by a factor of three (`Σcf/4` would be exact).  Every path therefore
exercises for payoff `1` although carrying forward is worth
`2 - exp(-2) ≈ 1.86`, and the engine prices the option at `1`, strictly
below the discounted terminal-only average. -/

noncomputable def cexCfg : MCInputs ℝ :=
  MCInputs.mk Real.exp Real.sqrt 2 4 (Payoff.mk true 2) 1 1 0 2
    (fun t _ => if t = 0 then 1 else 0)

theorem cexCfg_entry0 (p : ℕ) : cexCfg.entry 0 p = 1 := by
  show (genRows (Payoff.mk true 2) Real.exp (((0:ℝ) - 0.5 * 2 * 2) * 1)
      (2 * Real.sqrt 1) (fun t => if t = 0 then 1 else 0) 0 1 (2 - 1)).getD 0 0 = 1
  norm_num [genRows, pathStep, Real.sqrt_one]

theorem cexCfg_entry1 (p : ℕ) : cexCfg.entry 1 p = 2 - Real.exp (-2) := by
  have hexp2 : Real.exp (-2) < 1 := by
    rw [Real.exp_lt_one_iff]
    norm_num
  show (genRows (Payoff.mk true 2) Real.exp (((0:ℝ) - 0.5 * 2 * 2) * 1)
      (2 * Real.sqrt 1) (fun t => if t = 0 then 1 else 0) 0 1 (2 - 1)).getD 1 0 =
    2 - Real.exp (-2)
  norm_num [genRows, pathStep, Real.sqrt_one, Payoff.value]
  linarith

theorem cexCfg_row0 : cexCfg.row 0 = [1, 1, 1, 1] := by
  show (List.range 4).map (fun p => cexCfg.entry 0 p) = [1, 1, 1, 1]
  rw [show List.range 4 = [0, 1, 2, 3] from rfl]
  simp [cexCfg_entry0]

theorem cexCfg_itm_one : cexCfg.pay.itm 1 = true := by
  rw [show cexCfg.pay = Payoff.mk true 2 from rfl, Payoff.itm]
  norm_num

theorem cexCfg_flag0 : cexCfg.flag 0 = false := by
  rw [MCInputs.flag, cexCfg_row0, outOfMoneyFlag, decide_eq_false_iff_not]
  simp [List.countP_cons, cexCfg_itm_one]

theorem cexCfg_seeds (k : ℕ) (hk : k < 3) :
    (seedScan cexCfg.pay.itm 255 (cexCfg.row 0) 0 fun _ => 0).2 k = 1 := by
  rw [cexCfg_row0, seedScan]
  rw [show ([(1:ℝ), 1, 1, 1]).drop (255 + 1) = [] from rfl,
    show ([(1:ℝ), 1, 1, 1]).take (255 + 1) = [1, 1, 1, 1] from rfl]
  rw [if_pos (show (0:ℕ) < 3 by norm_num), if_pos (show (0:ℕ) < 3 by norm_num)]
  rw [seedScan]
  show (chunkSeeds cexCfg.pay.itm 0 [1, 1, 1, 1] 0 fun _ => 0) k = 1
  norm_num [chunkSeeds, cexCfg_itm_one]
  interval_cases k
  · norm_num [writeSeed]
  · norm_num [writeSeed]
  · norm_num [writeSeed]

theorem cexCfg_powSums :
    powSums cexCfg.pay.itm (cexCfg.row 0) = (4, 4, 4, 4) := by
  rw [cexCfg_row0, powSums]
  simp [List.filter_cons, cexCfg_itm_one]
  norm_num

theorem cexCfg_count : (cexCfg.row 0).countP cexCfg.pay.itm = 4 := by
  rw [cexCfg_row0]
  simp [List.countP_cons, cexCfg_itm_one]

theorem sqrt_four : Real.sqrt (4 : ℝ) = 2 := by
  rw [show (4:ℝ) = 2 ^ 2 by norm_num]
  exact Real.sqrt_sq (by norm_num)

/-- The QR of four identical in-the-money prices `1`:
`R = [[2, 2, 2], [0, 0, 0], [0, 0, 0]]` exactly (both degenerate-pivot
branches fire). -/
theorem cex_assembleR :
    assembleR Real.sqrt 4 ((4:ℝ), 4, 4, 4) 1 1 1 = (2, 2, 2, 0, 0, 0) := by
  rw [assembleR]
  norm_num [sqrt_four]

theorem jacobiCS_zero (sq : α → α) (a b : α) : jacobiCS sq a b 0 = (1, 0) := by
  rw [jacobiCS, if_neg (fun h => h rfl)]

theorem cex_cs1 :
    jacobiCS Real.sqrt 4 4 4 = (Real.sqrt 2 / 2, Real.sqrt 2 / 2) := by
  have hs2 : Real.sqrt 2 * Real.sqrt 2 = 2 := Real.mul_self_sqrt (by norm_num)
  have hs2sq : Real.sqrt 2 ^ 2 = 2 := Real.sq_sqrt (by norm_num)
  have hs2pos : (0:ℝ) < Real.sqrt 2 := Real.sqrt_pos.mpr (by norm_num)
  rw [jacobiCS, if_pos (show (4:ℝ) ≠ 0 by norm_num)]
  norm_num [Real.sqrt_one, Prod.mk.injEq]
  field_simp

theorem cex_cs3 :
    jacobiCS Real.sqrt 8 4 (4 * Real.sqrt 2) =
      (Real.sqrt 6 / 3, -(Real.sqrt 3 / 3)) := by
  have hs2 : Real.sqrt 2 * Real.sqrt 2 = 2 := Real.mul_self_sqrt (by norm_num)
  have hs6 : Real.sqrt 6 * Real.sqrt 6 = 6 := Real.mul_self_sqrt (by norm_num)
  have hs2sq : Real.sqrt 2 ^ 2 = 2 := Real.sq_sqrt (by norm_num)
  have hs6sq : Real.sqrt 6 ^ 2 = 6 := Real.sq_sqrt (by norm_num)
  have hs2pos : (0:ℝ) < Real.sqrt 2 := Real.sqrt_pos.mpr (by norm_num)
  have hs6pos : (0:ℝ) < Real.sqrt 6 := Real.sqrt_pos.mpr (by norm_num)
  have h23 : Real.sqrt 2 * Real.sqrt 3 = Real.sqrt 6 := by
    rw [← Real.sqrt_mul (by norm_num)]
    norm_num
  have h26 : Real.sqrt 2 * Real.sqrt 6 = 2 * Real.sqrt 3 := by
    rw [← h23, ← mul_assoc, hs2]
  have hA : (4:ℝ) * Real.sqrt 2 ≠ 0 := by positivity
  have htau : ((4:ℝ) - 8) / (2 * (4 * Real.sqrt 2)) = -(Real.sqrt 2) / 4 := by
    field_simp
    linarith [hs2, hs2sq]
  have hsgn : (-(Real.sqrt 2) / 4 : ℝ) < 0 := by
    linarith [hs2pos]
  have harg1 : (1:ℝ) + -(Real.sqrt 2) / 4 * (-(Real.sqrt 2) / 4) = 9 / 8 := by
    linarith [hs2, hs2sq]
  have hsqrt98 : Real.sqrt ((9:ℝ) / 8) = 3 * Real.sqrt 2 / 4 := by
    rw [show (9:ℝ)/8 = (3 * Real.sqrt 2 / 4) ^ 2 by
      rw [div_pow, mul_pow, hs2sq]
      norm_num]
    exact Real.sqrt_sq (by positivity)
  have hden1 : (-1:ℝ) * (-(Real.sqrt 2) / 4) + 3 * Real.sqrt 2 / 4 = Real.sqrt 2 := by
    ring
  have ht : (-1:ℝ) / Real.sqrt 2 = -(Real.sqrt 2 / 2) := by
    rw [div_eq_iff (ne_of_gt hs2pos)]
    linarith [hs2, hs2sq]
  have harg2 : (1:ℝ) + -(Real.sqrt 2 / 2) * -(Real.sqrt 2 / 2) = 3 / 2 := by
    linarith [hs2, hs2sq]
  have hsqrt32 : Real.sqrt ((3:ℝ) / 2) = Real.sqrt 6 / 2 := by
    rw [show (3:ℝ)/2 = (Real.sqrt 6 / 2) ^ 2 by
      rw [div_pow, hs6sq]
      norm_num]
    exact Real.sqrt_sq (by positivity)
  have hc : (1:ℝ) / (Real.sqrt 6 / 2) = Real.sqrt 6 / 3 := by
    field_simp
    linarith [hs6, hs6sq]
  have hs : -(Real.sqrt 2 / 2) * (Real.sqrt 6 / 3) = -(Real.sqrt  3 / 3) := by
    rw [show -(Real.sqrt 2 / 2) * (Real.sqrt 6 / 3) =
      -(Real.sqrt 2 * Real.sqrt 6 / 6) by ring, h26]
    ring
  rw [jacobiCS, if_pos hA]
  dsimp only
  rw [htau, if_pos hsgn, harg1, hsqrt98, hden1, ht, harg2, hsqrt32, hc, hs]

/-- When `A02` is already zero the `(0,2)` rotation is skipped
(`c = 1`, `s = 0`). -/
theorem rot2_id (sq : α → α) (st : JacobiSt α) (h : st.A02 = 0) :
    rot2 sq st = st := by
  obtain ⟨a00, a01, a02, a11, a12, a22, v00, v01, v02, v10, v11, v12, v20, v21, v22⟩ := st
  simp only at h
  subst h
  rw [rot2]
  dsimp only
  rw [jacobiCS_zero]
  norm_num [JacobiSt.mk.injEq]

theorem cex_rot1 :
    rot1 Real.sqrt (JacobiSt.mk 4 4 4 4 4 4 1 0 0 0 1 0 0 0 1) =
      JacobiSt.mk 0 0 0 8 (4 * Real.sqrt 2) 4
        (Real.sqrt 2 / 2) (Real.sqrt 2 / 2) 0
        (-(Real.sqrt 2 / 2)) (Real.sqrt 2 / 2) 0 0 0 1 := by
  have hs2 : Real.sqrt 2 * Real.sqrt 2 = 2 := Real.mul_self_sqrt (by norm_num)
  have hs2sq : Real.sqrt 2 ^ 2 = 2 := Real.sq_sqrt (by norm_num)
  have hs2pos : (0:ℝ) < Real.sqrt 2 := Real.sqrt_pos.mpr (by norm_num)
  rw [rot1]
  dsimp only
  rw [cex_cs1]
  simp only [JacobiSt.mk.injEq]
  norm_num
  repeat' constructor
  all_goals field_simp
  all_goals linarith [hs2, hs2sq]

theorem cex_rot3 :
    rot3 Real.sqrt (JacobiSt.mk 0 0 0 8 (4 * Real.sqrt 2) 4
        (Real.sqrt 2 / 2) (Real.sqrt 2 / 2) 0
        (-(Real.sqrt 2 / 2)) (Real.sqrt 2 / 2) 0 0 0 1) =
      JacobiSt.mk 0 0 0 12 0 0
        (Real.sqrt 2 / 2) (Real.sqrt 3 / 3) (-(Real.sqrt 6 / 6))
        (-(Real.sqrt 2 / 2)) (Real.sqrt 3 / 3) (-(Real.sqrt 6 / 6))
        0 (Real.sqrt 3 / 3) (Real.sqrt 6 / 3) := by
  have hs2 : Real.sqrt 2 * Real.sqrt 2 = 2 := Real.mul_self_sqrt (by norm_num)
  have hs3 : Real.sqrt 3 * Real.sqrt 3 = 3 := Real.mul_self_sqrt (by norm_num)
  have hs6 : Real.sqrt 6 * Real.sqrt 6 = 6 := Real.mul_self_sqrt (by norm_num)
  have hs2sq : Real.sqrt 2 ^ 2 = 2 := Real.sq_sqrt (by norm_num)
  have hs3sq : Real.sqrt 3 ^ 2 = 3 := Real.sq_sqrt (by norm_num)
  have hs6sq : Real.sqrt 6 ^ 2 = 6 := Real.sq_sqrt (by norm_num)
  have h23 : Real.sqrt 2 * Real.sqrt 3 = Real.sqrt 6 := by
    rw [← Real.sqrt_mul (by norm_num)]
    norm_num
  have h26 : Real.sqrt 2 * Real.sqrt 6 = 2 * Real.sqrt 3 := by
    rw [← h23, ← mul_assoc, hs2]
  have h36 : Real.sqrt 3 * Real.sqrt 6 = 3 * Real.sqrt 2 := by
    rw [← h23, show Real.sqrt 3 * (Real.sqrt 2 * Real.sqrt 3) =
      Real.sqrt 3 * Real.sqrt 3 * Real.sqrt 2 by ring, hs3]
  have h236 : Real.sqrt 2 * Real.sqrt 3 * Real.sqrt 6 = 6 := by
    rw [h23, hs6]
  have m1 : Real.sqrt 2 * Real.sqrt 3 ^ 2 = 3 * Real.sqrt 2 := by
    rw [hs3sq]; ring
  have m2 : Real.sqrt 2 * Real.sqrt 6 ^ 2 = 6 * Real.sqrt 2 := by
    rw [hs6sq]; ring
  have m3 : Real.sqrt 3 * Real.sqrt 2 ^ 2 = 2 * Real.sqrt 3 := by
    rw [hs2sq]; ring
  have m4 : Real.sqrt 3 * Real.sqrt 6 ^ 2 = 6 * Real.sqrt 3 := by
    rw [hs6sq]; ring
  have m5 : Real.sqrt 6 * Real.sqrt 2 ^ 2 = 2 * Real.sqrt 6 := by
    rw [hs2sq]; ring
  have m6 : Real.sqrt 6 * Real.sqrt 3 ^ 2 = 3 * Real.sqrt 6 := by
    rw [hs3sq]; ring
  rw [rot3]
  dsimp only
  rw [cex_cs3]
  simp only [JacobiSt.mk.injEq]
  norm_num
  repeat' constructor
  all_goals field_simp
  all_goals linarith [hs2, hs3, hs6, h23, h26, h36, h236, hs2sq, hs3sq, hs6sq,
    m1, m2, m3, m4, m5, m6]

/-- The Jacobi iteration on `A = 4·J` (rank one) finishes in a single
sweep: the first rotation zeroes the `(0,1)` pair, the `(0,2)` rotation is
skipped, and the `(1,2)` rotation leaves the exact diagonal `(0, 12, 0)`. -/
theorem cex_jacobi :
    jacobiLoop Real.sqrt 16 (JacobiSt.mk 4 4 4 4 4 4 1 0 0 0 1 0 0 0 1) =
      JacobiSt.mk 0 0 0 12 0 0
        (Real.sqrt 2 / 2) (Real.sqrt 3 / 3) (-(Real.sqrt 6 / 6))
        (-(Real.sqrt 2 / 2)) (Real.sqrt 3 / 3) (-(Real.sqrt 6 / 6))
        0 (Real.sqrt 3 / 3) (Real.sqrt 6 / 3) := by
  have hstep : ∀ (n : ℕ) (st : JacobiSt ℝ), jacobiLoop Real.sqrt (n + 1) st =
      if offDiagNorm Real.sqrt st.A01 st.A02 st.A12 < 1 / 10 ^ 12 then st
      else jacobiLoop Real.sqrt n
        (rot3 Real.sqrt (rot2 Real.sqrt (rot1 Real.sqrt st))) :=
    fun n st => rfl
  have hnorm0 : ¬ offDiagNorm Real.sqrt (4:ℝ) 4 4 < 1 / 10 ^ 12 := by
    rw [offDiagNorm]
    have h96 : (1:ℝ) ≤ Real.sqrt (2 * (4 * 4 + 4 * 4 + 4 * 4)) := by
      rw [show (2:ℝ) * (4 * 4 + 4 * 4 + 4 * 4) = 96 by norm_num]
      calc (1:ℝ) = Real.sqrt 1 := Real.sqrt_one.symm
        _ ≤ Real.sqrt 96 := Real.sqrt_le_sqrt (by norm_num)
    intro hlt
    have hcon := lt_of_le_of_lt h96 hlt
    norm_num at hcon
  have hnorm1 : offDiagNorm Real.sqrt (0:ℝ) 0 0 < 1 / 10 ^ 12 := by
    rw [offDiagNorm, show (2:ℝ) * (0 * 0 + 0 * 0 + 0 * 0) = 0 by norm_num,
      Real.sqrt_zero]
    norm_num
  rw [show (16:ℕ) = 15 + 1 by norm_num, hstep, if_neg hnorm0,
    cex_rot1, rot2_id _ _ (by norm_num), cex_rot3,
    show (15:ℕ) = 14 + 1 by norm_num, hstep, if_pos hnorm1]

theorem cex_sort :
    sortEig (JacobiSt.mk 0 0 0 12 0 0
        (Real.sqrt 2 / 2) (Real.sqrt 3 / 3) (-(Real.sqrt 6 / 6))
        (-(Real.sqrt 2 / 2)) (Real.sqrt 3 / 3) (-(Real.sqrt 6 / 6))
        0 (Real.sqrt 3 / 3) (Real.sqrt 6 / 3)) =
      JacobiSt.mk 12 0 0 0 0 0
        (Real.sqrt 3 / 3) (Real.sqrt 2 / 2) (-(Real.sqrt 6 / 6))
        (Real.sqrt 3 / 3) (-(Real.sqrt 2 / 2)) (-(Real.sqrt 6 / 6))
        (Real.sqrt 3 / 3) 0 (Real.sqrt 6 / 3) := by
  norm_num [sortEig]

/-- The full `svd_3x3` of the counterexample timestep: rational `R` and `W`
with the two spurious zero eigenvalues pruned by the guard, leaving
`W00' = 1/6` as the only nonzero `W` entry. -/
theorem cex_svd :
    svd3x3 Real.sqrt 4 ((4:ℝ), 4, 4, 4) 1 1 1 =
      Svd.mk 2 2 2 0 0 0 (1 / 6) 0 0 0 0 0 := by
  have hs2 : Real.sqrt 2 * Real.sqrt 2 = 2 := Real.mul_self_sqrt (by norm_num)
  have hs3 : Real.sqrt 3 * Real.sqrt 3 = 3 := Real.mul_self_sqrt (by norm_num)
  have hs6 : Real.sqrt 6 * Real.sqrt 6 = 6 := Real.mul_self_sqrt (by norm_num)
  have h12 : invEigGuard (12:ℝ) = 1 / 12 := by
    rw [invEigGuard, if_neg]
    rw [show |(12:ℝ)| = 12 by norm_num]
    norm_num
  have h0 : invEigGuard (0:ℝ) = 0 := by
    rw [invEigGuard, if_pos]
    rw [show |(0:ℝ)| = 0 by norm_num]
    norm_num
  rw [svd3x3]
  try dsimp only
  rw [cex_assembleR]
  try dsimp only
  norm_num
  rw [cex_jacobi, cex_sort]
  try dsimp only
  rw [h12, h0]
  norm_num [Svd.mk.injEq]
  field_simp
  linarith [hs3]

theorem cex_svdAt :
    cexCfg.svdAt 0 = Svd.mk 2 2 2 0 0 0 (1 / 6) 0 0 0 0 0 := by
  rw [MCInputs.svdAt, cexCfg_count, cexCfg_powSums, cexCfg_seeds 0 (by norm_num),
    cexCfg_seeds 1 (by norm_num), cexCfg_seeds 2 (by norm_num)]
  show svd3x3 Real.sqrt 4 ((4:ℝ), 4, 4, 4) 1 1 1 = _
  exact cex_svd

theorem cex_weights :
    betaWeights (Svd.mk 2 2 2 0 0 0 (1 / 6) 0 0 0 0 0) (1:ℝ) = (1 / 12, 0, 0) := by
  rw [betaWeights]
  norm_num [invDiagGuard]

theorem cex_cash0 (p : ℕ) : cexCfg.cashAt 0 p = 2 - Real.exp (-2) := by
  show cexCfg.entry (2 - 1) p = _
  rw [show (2:ℕ) - 1 = 1 by norm_num, cexCfg_entry1]

theorem cex_beta :
    cexCfg.betaAt 0 (cexCfg.cashAt 0) = ((2 - Real.exp (-2)) / 3, 0, 0) := by
  rw [MCInputs.betaAt, cexCfg_flag0, finalBeta, if_neg (by simp), partialBeta,
    show cexCfg.N = 4 from rfl]
  have hw : ∀ p : ℕ,
      betaWeights (cexCfg.svdAt 0) (cexCfg.entry 0 p) = (1 / 12, 0, 0) := by
    intro p
    rw [cexCfg_entry0, cex_svdAt, cex_weights]
  have hcf : ∀ p : ℕ,
      (if cexCfg.pay.itm (cexCfg.entry 0 p) then cexCfg.cashAt 0 p else 0) =
        2 - Real.exp (-2) := by
    intro p
    rw [cexCfg_entry0, cexCfg_itm_one, if_pos rfl, cex_cash0]
  simp only [Finset.sum_range_succ, Finset.sum_range_zero, hw, hcf]
  norm_num
  ring

theorem cex_disc : cexCfg.disc = 1 := by
  rw [MCInputs.disc]
  show Real.exp (-((0:ℝ) * 1)) = 1
  norm_num

theorem cex_cash1 (p : ℕ) : cexCfg.cashAt 1 p = 1 := by
  have hexp2 : (0:ℝ) < Real.exp (-2) := Real.exp_pos _
  have hexp2' : Real.exp (-2) < 1 := by
    rw [Real.exp_lt_one_iff]
    norm_num
  show cexCfg.stepAt (2 - 1 - 1) (cexCfg.cashAt 0) p = 1
  rw [show (2:ℕ) - 1 - 1 = 0 by norm_num, MCInputs.stepAt, cex_beta,
    updateCashflow, cexCfg_flag0, cex_disc]
  simp only [Bool.false_eq_true, if_false]
  rw [cexCfg_entry0]
  rw [show cexCfg.pay.value 1 = 1 by
    rw [show cexCfg.pay = Payoff.mk true (2:ℝ) from rfl, Payoff.value]
    norm_num]
  rw [if_neg]
  push_neg
  constructor
  · norm_num
  · nlinarith [hexp2, hexp2']

theorem cex_price : cexCfg.price = 1 := by
  rw [MCInputs.price, finalSumBlocked_eq, cex_disc]
  rw [show cexCfg.T - 1 = 1 from rfl]
  rw [Finset.sum_congr rfl fun p _ => cex_cash1 p]
  show (1:ℝ) * (∑ _p ∈ Finset.range 4, (1:ℝ)) / ((4:ℕ):ℝ) = 1
  norm_num

theorem cex_terminal (p : ℕ) :
    cexCfg.pay.value (gbmPrice cexCfg.r cexCfg.sigma cexCfg.dt cexCfg.S0
        (fun k => cexCfg.Z k p) cexCfg.T) = 2 - Real.exp (-2) := by
  have hexp2' : Real.exp (-2) < 1 := by
    rw [Real.exp_lt_one_iff]
    norm_num
  show (Payoff.mk true (2:ℝ)).value (gbmPrice 0 2 1 1
      (fun k => if k = 0 then 1 else 0) 2) = 2 - Real.exp (-2)
  have hg1 : gbmPrice 0 2 1 1 (fun k => if k = 0 then (1:ℝ) else 0) 1 = 1 := by
    rw [gbmPrice, gbmPrice]
    norm_num [Real.sqrt_one]
  rw [show (2:ℕ) = 1 + 1 from rfl, gbmPrice, hg1, Payoff.value]
  rw [show ((0:ℝ) - 2 ^ 2 / 2) * 1 + 2 * Real.sqrt 1 *
      (if (1:ℕ) = 0 then (1:ℝ) else 0) = -2 by norm_num [Real.sqrt_one]]
  rw [one_mul, if_pos rfl]
  show max ((2:ℝ) - Real.exp (-2)) 0 = 2 - Real.exp (-2)
  rw [max_eq_left (by linarith)]

/-- C7 counterexample.  On this concrete input the engine's LSM price is
`1`, strictly below the discounted terminal-only (European-style) payoff
average `2 - exp(-2)` computed from the same paths: the regression's
rank-deficient pseudo-inverse underestimates the continuation value and
triggers a value-destroying early exercise. -/
theorem lsm_price_below_european :
    cexCfg.price <
      Real.exp (-(cexCfg.r * cexCfg.dt * cexCfg.T)) *
        (∑ p ∈ Finset.range cexCfg.N,
          cexCfg.pay.value (gbmPrice cexCfg.r cexCfg.sigma cexCfg.dt cexCfg.S0
            (fun k => cexCfg.Z k p) cexCfg.T)) / cexCfg.N := by
  have hexp2' : Real.exp (-2) < 1 := by
    rw [Real.exp_lt_one_iff]
    norm_num
  rw [cex_price, Finset.sum_congr rfl fun p _ => cex_terminal p]
  show (1:ℝ) < Real.exp (-((0:ℝ) * 1 * ((2:ℕ):ℝ))) *
    (∑ _p ∈ Finset.range 4, (2 - Real.exp (-2))) / ((4:ℕ):ℝ)
  norm_num
  linarith

/-- C7 amended.  Whenever every timestep of the run is flagged
out-of-the-money (so no early exercise is ever taken), the LSM price is at
least — indeed equal to — the discounted terminal-only payoff average. -/
theorem price_ge_european_when_all_flagged (T N : ℕ) (pay : Payoff ℝ)
    (dt S0 r sigma : ℝ) (Z : ℕ → ℕ → ℝ) (hT : 1 ≤ T)
    (hflag : ∀ t,
      (MCInputs.mk Real.exp Real.sqrt T N pay dt S0 r sigma Z).flag t = true) :
    (MCInputs.mk Real.exp Real.sqrt T N pay dt S0 r sigma Z).price ≥
      Real.exp (-(r * dt * T)) *
        (∑ p ∈ Finset.range N,
          pay.value (gbmPrice r sigma dt S0 (fun k => Z k p) T)) / N := by
  set c : MCInputs ℝ := MCInputs.mk Real.exp Real.sqrt T N pay dt S0 r sigma Z with hc
  apply ge_of_eq
  rw [price_all_flagged c hT hflag]
  have hcash0 : ∀ p, c.cashAt 0 p =
      pay.value (gbmPrice r sigma dt S0 (fun k => Z k p) T) := by
    intro p
    show c.entry (c.T - 1) p = _
    rw [MCInputs.entry, hc, pathsEntry_last, show T - 1 + 1 = T by omega]
  rw [Finset.sum_congr rfl fun p _ => hcash0 p]
  have hdisc : c.disc ^ c.T = Real.exp (-(r * dt * T)) := by
    show Real.exp (-(r * dt)) ^ T = _
    rw [← Real.exp_nat_mul]
    congr 1
    ring
  rw [hdisc]

/-- Witness for the amended C7 with one path (always flagged). -/
theorem price_ge_european_when_all_flagged_witness :
    1 ≤ 2 ∧
    (MCInputs.mk Real.exp Real.sqrt 2 1 (Payoff.mk true 4) 1 3 0 1
        (fun _ _ => 0)).price ≥
      Real.exp (-(0 * 1 * ((2:ℕ):ℝ))) *
        (∑ _p ∈ Finset.range 1,
          (Payoff.mk (α := ℝ) true 4).value
            (gbmPrice 0 1 1 3 (fun _ => 0) 2)) / ((1:ℕ):ℝ) :=
  ⟨by norm_num,
   price_ge_european_when_all_flagged 2 1 (Payoff.mk true 4) 1 3 0 1
     (fun _ _ => 0) (by norm_num)
     (fun t => countP_row_lt _ t (by norm_num))⟩

end LSM
